import Mathlib

/-!
# mpags-cipher: the chunked cipher-application stage of `main`

A shallow embedding of `src/mpags-cipher.cpp`, lines 102-176: the text read
from the input is cut into `nThreads - 1` substrings, one asynchronous task per
substring applies the cipher, and the results are concatenated in launch
order.  `std::string` is a list of characters, a `std::future<std::string>`
is the value its task ends with (a string or the `InvalidKey` it threw), and
the exceptions that can leave the `try` block are explicit results.  How often
`wait_for` times out before a task is ready is an input of the model
(`timeouts`); what is written to `std::cerr` is not modelled.

`size_t` arithmetic is modelled on `Nat`: with `nThreads = 10` the only
products formed are `t * subStrLength` for `t ≤ 8`, which stay below `2 ^ 64`
for every string length below `2 ^ 64` (`chunk_start_no_wrap` below).
-/

namespace MPAGSCipher

/-- The contents of a `std::string`. -/
abbrev Text := List Char

/-- The enumeration `CipherMode` used by `main` (`CipherMode::Encrypt` is the default). -/
inductive CipherMode where
  | Encrypt
  | Decrypt
  deriving DecidableEq, Repr

/-- The exception `InvalidKey` of `Exceptions.hpp`: a `std::logic_error` carrying a message. -/
structure InvalidKey where
  msg : String
  deriving DecidableEq, Repr

/-- The object behind the pointer returned by `cipherFactory`: `main` only calls
`cipher->applyCipher(inText, mode)`, which returns a string or throws `InvalidKey`. -/
structure Cipher where
  applyCipher : Text → CipherMode → Except InvalidKey Text

/-- The value held by a `std::future<std::string>` once its task has ended:
the string returned, or the exception stored for `get()` to rethrow. -/
abbrev Future := Except InvalidKey Text

/-- The member `std::string::substr(pos, count)`: throws `std::out_of_range` (here `none`)
when `pos > size()`, and otherwise returns the characters `[pos, min(pos + count, size()))`. -/
def substr (s : Text) (pos count : Nat) : Option Text :=
  if pos > s.length then none else some ((s.drop pos).take count)

/-- Line 108: `size_t subStrLength = inputText.size()/nThreads + 1;`. -/
def subStrLengthWith (nThreads : Nat) (inputText : Text) : Nat :=
  inputText.length / nThreads + 1

/-- Lines 107-108 with the constant of the source, `nThreads = 10`. -/
def subStrLength (inputText : Text) : Nat :=
  subStrLengthWith 10 inputText

/-- What can be thrown inside the `try` block of lines 104-149. -/
inductive Thrown where
  | invalidKey (e : InvalidKey)
  | outOfRange
  deriving DecidableEq, Repr

/-- Lines 126-132, the loop `for (t; t < nThreads - 1; t++)`, entered at index `t` with
`remaining` iterations still to run and the futures pushed so far: each iteration takes
`inputText.substr(t*subStrLength, subStrLength)` and pushes the future of the cipher applied
to it.  A `std::out_of_range` thrown by `substr` leaves the loop. -/
def launchLoop (cipher : Cipher) (mode : CipherMode) (inputText : Text) (len : Nat) :
    Nat → Nat → List Future → Except Thrown (List Future)
  | 0, _, futureVec => .ok futureVec
  | remaining + 1, t, futureVec =>
    match substr inputText (t * len) len with
    | none => .error .outOfRange
    | some subStrInputText =>
      launchLoop cipher mode inputText len remaining (t + 1)
        (futureVec ++ [cipher.applyCipher subStrInputText mode])

/-- Lines 137-142, the `do ... while (status != std::future_status::ready)` on one future
whose `wait_for` times out `k` times before it is ready: the text written to `std::cout`,
one line `[main] waiting...` per timeout. -/
def waitFor : Nat → Text
  | 0 => []
  | k + 1 => "[main] waiting...\n".toList ++ waitFor k

/-- Lines 134-143: the futures are waited for in the order of the vector; `timeouts` gives
for each future in turn the number of timeouts of its `wait_for` (none when the list is
exhausted).  The result is the text written to `std::cout`; the futures are unchanged. -/
def waitLoop : List Nat → List Future → Text
  | _, [] => []
  | [], _ :: rest => waitLoop [] rest
  | k :: timeouts, _ :: rest => waitFor k ++ waitLoop timeouts rest

/-- Lines 145-148: `outputText += fut.get()` for each future in the order of the vector;
`get()` rethrows the `InvalidKey` stored in a future. -/
def concatLoop : List Future → Text → Except Thrown Text
  | [], outputText => .ok outputText
  | .ok s :: rest, outputText => concatLoop rest (outputText ++ s)
  | .error e :: _, _ => .error (.invalidKey e)

/-- How the statements of lines 103-154 end. -/
inductive StageResult where
  /-- Control leaves the `try` statement normally with this `outputText`. -/
  | output (outputText : Text)
  /-- Line 115: `return 1` because `cipherFactory` returned a null pointer. -/
  | constructionFailure
  /-- Lines 150-154: `InvalidKey` was caught, `return 1`. -/
  | invalidKeyFailure (e : InvalidKey)
  /-- A `std::out_of_range` left the `try` statement: no handler matches it. -/
  | uncaughtOutOfRange
  deriving DecidableEq, Repr

/-- Lines 103-154 with `nThreads` as a parameter (at least 1: the source divides by it and
subtracts 1 from it); `cipher` is what `cipherFactory` returned (`none` for the null
pointer).  This is how the statements end; the wait loop of lines 134-143 changes neither
the futures nor `outputText`, and what it writes to `std::cout` is `stageCoutWith`. -/
def cipherStageWith (nThreads : Nat) (cipher : Option Cipher) (mode : CipherMode)
    (inputText : Text) : StageResult :=
  let len := subStrLengthWith nThreads inputText
  match cipher with
  | none => .constructionFailure
  | some c =>
    match launchLoop c mode inputText len (nThreads - 1) 0 [] with
    | .error .outOfRange => .uncaughtOutOfRange
    | .error (.invalidKey e) => .invalidKeyFailure e
    | .ok futureVec =>
      match concatLoop futureVec [] with
      | .ok outputText => .output outputText
      | .error (.invalidKey e) => .invalidKeyFailure e
      | .error .outOfRange => .uncaughtOutOfRange

/-- Lines 103-154 as written, with `nThreads = 10`. -/
def cipherStage (cipher : Option Cipher) (mode : CipherMode) (inputText : Text) : StageResult :=
  cipherStageWith 10 cipher mode inputText

/-- What lines 103-154 write to `std::cout`: the progress lines of the wait loop, which is
reached when the cipher was constructed and every substring was taken. -/
def stageCoutWith (nThreads : Nat) (timeouts : List Nat) (cipher : Option Cipher)
    (mode : CipherMode) (inputText : Text) : Text :=
  let len := subStrLengthWith nThreads inputText
  match cipher with
  | none => []
  | some c =>
    match launchLoop c mode inputText len (nThreads - 1) 0 [] with
    | .error _ => []
    | .ok futureVec => waitLoop timeouts futureVec

/-- What lines 103-154 write to `std::cout` as written, with `nThreads = 10`. -/
def stageCout (timeouts : List Nat) (cipher : Option Cipher) (mode : CipherMode)
    (inputText : Text) : Text :=
  stageCoutWith 10 timeouts cipher mode inputText

/-- How `main` ends once the input has been read. -/
inductive RunResult where
  /-- `main` returns `code`; `cout` is all the text written to `std::cout`, and `file` the
  name and the contents of the output file when one was written. -/
  | returned (code : Nat) (cout : Text) (file : Option (String × Text))
  /-- An exception left `main` (before anything was written to `std::cout` or a file). -/
  | terminated
  deriving DecidableEq, Repr

/-- Lines 156-176, entered with `cout` already written to `std::cout`: `outputText` followed
by `std::endl` is written to the output file when one is named and its stream is good, to
`std::cout` when none is named; a stream that is not good gives `return 1`.  `streamGood` is
the value of `outputStream.good()`. -/
def writeOutput (cout : Text) (outputFile : String) (streamGood : Bool) (outputText : Text) :
    RunResult :=
  if outputFile ≠ "" then
    if !streamGood then .returned 1 cout none
    else .returned 0 cout (some (outputFile, outputText ++ ['\n']))
  else .returned 0 (cout ++ outputText ++ ['\n']) none

/-- Lines 102-176: the cipher stage followed by the output stage. -/
def run (cipher : Option Cipher) (mode : CipherMode) (timeouts : List Nat)
    (outputFile : String) (streamGood : Bool) (inputText : Text) : RunResult :=
  match cipherStage cipher mode inputText with
  | .output outputText =>
    writeOutput (stageCout timeouts cipher mode inputText) outputFile streamGood outputText
  | .constructionFailure => .returned 1 [] none
  | .invalidKeyFailure _ => .returned 1 (stageCout timeouts cipher mode inputText) none
  | .uncaughtOutOfRange => .terminated

/-- A cipher whose `applyCipher` never throws. -/
def Cipher.ofFun (f : Text → CipherMode → Text) : Cipher :=
  ⟨fun s m => .ok (f s m)⟩

/-- Modelled from the spec: the Caesar cipher of the scenario (`CaesarCipher` is not among
the sources): in mode Encrypt each letter of `A..Z` is shifted forward by the key with
wraparound, in mode Decrypt backward; other characters are unchanged. -/
def caesarChar (key : Nat) (mode : CipherMode) (c : Char) : Char :=
  if 65 ≤ c.toNat ∧ c.toNat ≤ 90 then
    match mode with
    | .Encrypt => Char.ofNat ((c.toNat - 65 + key % 26) % 26 + 65)
    | .Decrypt => Char.ofNat ((c.toNat - 65 + (26 - key % 26)) % 26 + 65)
  else c

/-- Modelled from the spec: the Caesar cipher applied to a text, character by character. -/
def caesarCipher (key : Nat) : Cipher :=
  Cipher.ofFun (fun s m => s.map (caesarChar key m))

/-- A cipher for worked examples of a failing task: `applyCipher` raises `InvalidKey` on a
text that contains the letter `Z` and is the Caesar shift by `key` on any other text. -/
def caesarRejectingZ (key : Nat) : Cipher :=
  ⟨fun s m => if s.contains 'Z' then .error ⟨"invalid key"⟩ else .ok (s.map (caesarChar key m))⟩

end MPAGSCipher

namespace MPAGSCipher

/-! ## Arithmetic of the chunk length -/

theorem subStrLength_eq (text : Text) : subStrLength text = text.length / 10 + 1 := rfl

/-- With `nThreads = 10` no chunk start wraps around in 64-bit `size_t` arithmetic. -/
theorem chunk_start_no_wrap (text : Text) (hn : text.length < 2 ^ 64) (t : Nat) (ht : t < 9) :
    t * subStrLength text < 2 ^ 64 := by
  have h8 : t * subStrLength text ≤ 8 * subStrLength text :=
    Nat.mul_le_mul_right _ (by omega)
  rw [subStrLength_eq] at *
  omega

theorem chunk_start_le (text : Text) (h : 8 * subStrLength text ≤ text.length) (t : Nat)
    (ht : t < 9) : t * subStrLength text ≤ text.length := by
  have h8 : t * subStrLength text ≤ 8 * subStrLength text :=
    Nat.mul_le_mul_right _ (by omega)
  omega

/-! ## `substr` -/

theorem substr_of_le (s : Text) (pos count : Nat) (h : pos ≤ s.length) :
    substr s pos count = some ((s.drop pos).take count) := by
  unfold substr
  rw [if_neg (by omega)]

theorem substr_of_gt (s : Text) (pos count : Nat) (h : s.length < pos) :
    substr s pos count = none := by
  unfold substr
  rw [if_pos h]

theorem substr_eq_none_iff (s : Text) (pos count : Nat) :
    substr s pos count = none ↔ s.length < pos := by
  unfold substr
  split <;> simp_all

/-! ## The loops -/

/-- The substrings taken by `count` iterations of the launch loop starting at index `t`,
when every `substr` call succeeds. -/
theorem launchLoop_ok (c : Cipher) (m : CipherMode) (text : Text) (len : Nat) :
    ∀ (count t : Nat) (futureVec : List Future),
      (∀ i, t ≤ i → i < t + count → i * len ≤ text.length) →
      launchLoop c m text len count t futureVec =
        .ok (futureVec ++ (List.range' t count).map
          (fun i => c.applyCipher ((text.drop (i * len)).take len) m)) := by
  intro count
  induction count with
  | zero => intro t futureVec _; simp [launchLoop]
  | succ k ih =>
    intro t futureVec h
    have ht : t * len ≤ text.length := h t (Nat.le_refl _) (by omega)
    rw [launchLoop, substr_of_le _ _ _ ht]
    simp only []
    rw [ih (t + 1) _ (fun i h1 h2 => h i (by omega) (by omega)), List.range'_succ]
    simp

/-- A chunk start beyond the end of the text makes the launch loop throw. -/
theorem launchLoop_outOfRange (c : Cipher) (m : CipherMode) (text : Text) (len : Nat) :
    ∀ (count t : Nat) (futureVec : List Future),
      (∃ i, t ≤ i ∧ i < t + count ∧ text.length < i * len) →
      launchLoop c m text len count t futureVec = .error .outOfRange := by
  intro count
  induction count with
  | zero => intro t futureVec ⟨i, h1, h2, _⟩; omega
  | succ k ih =>
    intro t futureVec ⟨i, h1, h2, h3⟩
    rw [launchLoop]
    by_cases ht : text.length < t * len
    · rw [substr_of_gt _ _ _ ht]
    · rw [substr_of_le _ _ _ (by omega)]
      simp only []
      refine ih (t + 1) _ ⟨i, ?_, by omega, h3⟩
      by_contra hlt
      have : i = t := by omega
      subst this
      exact ht h3

theorem concatLoop_ok (results : List Text) (outputText : Text) :
    concatLoop (results.map Except.ok) outputText = .ok (outputText ++ results.flatten) := by
  induction results generalizing outputText with
  | nil => simp [concatLoop]
  | cons r rest ih => simp [concatLoop, ih]

theorem concatLoop_error (futureVec : List Future) (outputText : Text)
    (h : ∃ e, Except.error e ∈ futureVec) :
    ∃ e, concatLoop futureVec outputText = .error (.invalidKey e) := by
  induction futureVec generalizing outputText with
  | nil => simp at h
  | cons f rest ih =>
    cases f with
    | error e => exact ⟨e, by simp [concatLoop]⟩
    | ok s =>
      obtain ⟨e, he⟩ := h
      simp at he
      simpa [concatLoop] using ih (outputText ++ s) ⟨e, he⟩

/-- The chunks taken at indices `t, …, t + count - 1` are adjacent pieces of the text. -/
theorem flatten_chunks (text : Text) (len : Nat) :
    ∀ (count t : Nat),
      ((List.range' t count).map (fun i => (text.drop (i * len)).take len)).flatten =
        (text.drop (t * len)).take (count * len) := by
  intro count
  induction count with
  | zero => intro t; simp
  | succ k ih =>
    intro t
    rw [List.range'_succ, List.map_cons, List.flatten_cons, ih (t + 1)]
    have e1 : (k + 1) * len = len + k * len := by ring
    have e2 : (t + 1) * len = t * len + len := by ring
    rw [e1, List.take_add, e2, List.drop_drop]

/-! ## The stage when every chunk can be extracted -/

/-- The futures of the nine chunks, in index order. -/
theorem launchLoop_nine (c : Cipher) (m : CipherMode) (text : Text)
    (h : 8 * subStrLength text ≤ text.length) :
    launchLoop c m text (subStrLength text) 9 0 [] =
      .ok ((List.range' 0 9).map
        (fun i => c.applyCipher ((text.drop (i * subStrLength text)).take (subStrLength text)) m)) := by
  rw [launchLoop_ok c m text (subStrLength text) 9 0 []
    (fun i _ hi => chunk_start_le text h i (by omega))]
  simp

theorem cipherStage_of_ok (c : Cipher) (m : CipherMode) (text : Text) (futureVec : List Future)
    (h : launchLoop c m text (subStrLength text) 9 0 [] = .ok futureVec) :
    cipherStage (some c) m text =
      match concatLoop futureVec [] with
      | .ok outputText => .output outputText
      | .error (.invalidKey e) => .invalidKeyFailure e
      | .error .outOfRange => .uncaughtOutOfRange := by
  have h' : launchLoop c m text (subStrLengthWith 10 text) 9 0 [] = .ok futureVec := h
  simp only [cipherStage, cipherStageWith, h']

/-- When no chunk throws, the stage outputs the chunk results concatenated in index order. -/
theorem cipherStage_of_results (c : Cipher) (m : CipherMode) (text : Text)
    (h : 8 * subStrLength text ≤ text.length) (f : Text → Text)
    (hf : ∀ i, i < 9 →
      c.applyCipher ((text.drop (i * subStrLength text)).take (subStrLength text)) m =
        .ok (f ((text.drop (i * subStrLength text)).take (subStrLength text)))) :
    cipherStage (some c) m text =
      .output (((List.range' 0 9).map
        (fun i => f ((text.drop (i * subStrLength text)).take (subStrLength text)))).flatten) := by
  rw [cipherStage_of_ok c m text _ (launchLoop_nine c m text h)]
  have e : (List.range' 0 9).map
      (fun i => c.applyCipher ((text.drop (i * subStrLength text)).take (subStrLength text)) m) =
      ((List.range' 0 9).map
        (fun i => f ((text.drop (i * subStrLength text)).take (subStrLength text)))).map
        Except.ok := by
    rw [List.map_map]
    apply List.map_congr_left
    intro i hi
    simp only [List.mem_range'_1] at hi
    simpa using hf i (by omega)
  rw [e, concatLoop_ok]
  simp

/-- An empty input makes the second `substr` call throw, whatever the cipher. -/
theorem cipherStage_nil (c : Cipher) (m : CipherMode) :
    cipherStage (some c) m [] = .uncaughtOutOfRange := by
  simp [cipherStage, cipherStageWith, subStrLengthWith, launchLoop, substr]

/-- A function that distributes over concatenation distributes over `flatten`. -/
theorem distrib_flatten (f : Text → Text) (hf : ∀ a b, f (a ++ b) = f a ++ f b)
    (chunks : List Text) : (chunks.map f).flatten = f chunks.flatten := by
  have hnil : f [] = [] := by
    have := hf [] []
    simp only [List.append_nil] at this
    have hl := congrArg List.length this
    simp only [List.length_append] at hl
    exact List.length_eq_zero.mp (by omega)
  induction chunks with
  | nil => simp [hnil]
  | cons a rest ih => simp [hf, ih]

/-! ## Texts that agree on the covered prefix -/

theorem launchLoop_congr (c : Cipher) (m : CipherMode) (text text' : Text) (len : Nat) :
    ∀ (count t : Nat) (futureVec : List Future),
      (∀ i, t ≤ i → i < t + count → substr text' (i * len) len = substr text (i * len) len) →
      launchLoop c m text' len count t futureVec = launchLoop c m text len count t futureVec := by
  intro count
  induction count with
  | zero => intro t futureVec _; simp [launchLoop]
  | succ k ih =>
    intro t futureVec h
    rw [launchLoop, launchLoop, h t (Nat.le_refl _) (by omega)]
    cases substr text (t * len) len with
    | none => rfl
    | some sub => exact ih (t + 1) _ (fun i h1 h2 => h i (by omega) (by omega))

theorem chunk_of_take (text suffix : Text) (k a b : Nat) (hk : k ≤ text.length)
    (hab : a + b ≤ k) :
    ((text.take k ++ suffix).drop a).take b = (text.drop a).take b := by
  have hlen : (text.take k).length = k := by simp [List.length_take]; omega
  rw [List.drop_append_of_le_length (by omega),
    List.take_append_of_le_length (by simp [List.length_drop]; omega),
    List.take_drop, List.take_drop, List.take_take, Nat.min_eq_left hab]

/-- Replacing the characters after the first `9 * subStrLength` by others does not change
what the stage does. -/
theorem cipherStage_suffix (c : Cipher) (m : CipherMode) (text suffix : Text)
    (hs : suffix.length = text.length - 9 * subStrLength text) :
    cipherStage (some c) m (text.take (9 * subStrLength text) ++ suffix) =
      cipherStage (some c) m text := by
  by_cases hle : text.length ≤ 9 * subStrLength text
  · have hnil : suffix = [] := List.length_eq_zero.mp (by omega)
    rw [hnil, List.append_nil, List.take_of_length_le hle]
  · have hlen : (text.take (9 * subStrLength text) ++ suffix).length = text.length := by
      simp [List.length_take]; omega
    have hL : subStrLengthWith 10 (text.take (9 * subStrLength text) ++ suffix) =
        subStrLengthWith 10 text := by
      simp only [subStrLengthWith, hlen]
    have hloop := launchLoop_congr c m text (text.take (9 * subStrLength text) ++ suffix)
      (subStrLengthWith 10 text) 9 0 [] (by
        intro i _ hi
        have hi9 : i * subStrLength text + subStrLength text ≤ 9 * subStrLength text := by
          have : (i + 1) * subStrLength text ≤ 9 * subStrLength text :=
            Nat.mul_le_mul_right _ (by omega)
          linarith [Nat.succ_mul i (subStrLength text)]
        unfold substr
        rw [hlen]
        split
        · rfl
        · exact congrArg some (chunk_of_take text suffix _ _ _ (by omega) hi9))
    simp only [cipherStage, cipherStageWith, hL, hloop]

/-! ## The stage when a chunk cannot be extracted -/

theorem cipherStage_of_lt (c : Cipher) (m : CipherMode) (text : Text)
    (h : text.length < 8 * subStrLength text) :
    cipherStage (some c) m text = .uncaughtOutOfRange := by
  have hloop : launchLoop c m text (subStrLengthWith 10 text) 9 0 [] = .error .outOfRange :=
    launchLoop_outOfRange c m text (subStrLengthWith 10 text) 9 0 []
      ⟨8, by omega, by omega, h⟩
  simp only [cipherStage, cipherStageWith, hloop]

theorem run_of_output (c : Cipher) (m : CipherMode) (timeouts : List Nat) (outputFile : String)
    (streamGood : Bool) (text out : Text) (h : cipherStage (some c) m text = .output out) :
    run (some c) m timeouts outputFile streamGood text =
      writeOutput (stageCout timeouts (some c) m text) outputFile streamGood out := by
  simp only [run, h]

theorem run_of_invalidKey (c : Cipher) (m : CipherMode) (timeouts : List Nat)
    (outputFile : String) (streamGood : Bool) (text : Text) (e : InvalidKey)
    (h : cipherStage (some c) m text = .invalidKeyFailure e) :
    run (some c) m timeouts outputFile streamGood text =
      .returned 1 (stageCout timeouts (some c) m text) none := by
  simp only [run, h]

/-! ## The progress lines of the wait loop -/

theorem waitFor_add (a b : Nat) : waitFor (a + b) = waitFor a ++ waitFor b := by
  induction a with
  | zero => simp [waitFor]
  | succ k ih => rw [Nat.succ_add, waitFor, waitFor, ih, List.append_assoc]

/-- The wait loop writes one progress line per timeout of the futures it waits for. -/
theorem waitLoop_eq (futureVec : List Future) :
    ∀ timeouts : List Nat,
      waitLoop timeouts futureVec = waitFor ((timeouts.take futureVec.length).sum) := by
  induction futureVec with
  | nil => intro timeouts; cases timeouts <;> simp [waitLoop, waitFor]
  | cons f rest ih =>
    intro timeouts
    cases timeouts with
    | nil => rw [waitLoop, ih]; simp
    | cons k ts =>
      rw [waitLoop, ih, List.length_cons, List.take_succ_cons, List.sum_cons, waitFor_add]

/-- When the nine chunks can be extracted the stage writes one progress line per timeout of
the nine futures. -/
theorem stageCout_of_le (c : Cipher) (m : CipherMode) (timeouts : List Nat) (text : Text)
    (h : 8 * subStrLength text ≤ text.length) :
    stageCout timeouts (some c) m text = waitFor ((timeouts.take 9).sum) := by
  have hloop : launchLoop c m text (subStrLengthWith 10 text) 9 0 [] = _ :=
    launchLoop_nine c m text h
  simp only [stageCout, stageCoutWith, hloop]
  rw [waitLoop_eq]
  simp

/-! ## Claims -/

/-- C1: when the nine chunks can be extracted (`8 * L ≤ n`), the chunks
`substr(t*L, L)`, `t = 0..8`, concatenated in index order are the first `min(n, 9*L)`
characters of the text; the remaining `n - 9*L` characters follow them in the text, are in
no chunk, and replacing them by any others leaves the result of the stage unchanged; this
suffix is non-empty exactly when `n > 9*L`, which holds for every `n ≥ 100`. -/
theorem tail_truncated (text : Text) (h : 8 * subStrLength text ≤ text.length) :
    ∃ chunks : List Text,
      chunks.length = 9 ∧
      (∀ t, t < 9 →
        substr text (t * subStrLength text) (subStrLength text) = chunks[t]?) ∧
      chunks.flatten = text.take (min text.length (9 * subStrLength text)) ∧
      chunks.flatten ++ text.drop (9 * subStrLength text) = text ∧
      (text.drop (9 * subStrLength text)).length = text.length - 9 * subStrLength text ∧
      (∀ (c : Cipher) (m : CipherMode),
        launchLoop c m text (subStrLength text) 9 0 [] =
          .ok (chunks.map (fun s => c.applyCipher s m))) ∧
      (∀ (c : Cipher) (m : CipherMode) (suffix : Text),
        suffix.length = text.length - 9 * subStrLength text →
        cipherStage (some c) m (text.take (9 * subStrLength text) ++ suffix) =
          cipherStage (some c) m text) ∧
      (text.drop (9 * subStrLength text) ≠ [] ↔ 9 * subStrLength text < text.length) ∧
      (100 ≤ text.length → 9 * subStrLength text < text.length) := by
  have hflat := flatten_chunks text (subStrLength text) 9 0
  simp only [Nat.zero_mul, List.drop_zero] at hflat
  have hmin : text.take (min text.length (9 * subStrLength text)) =
      text.take (9 * subStrLength text) := by
    by_cases hle : text.length ≤ 9 * subStrLength text
    · rw [Nat.min_eq_left hle, List.take_of_length_le hle, List.take_of_length_le (Nat.le_refl _)]
    · rw [Nat.min_eq_right (by omega)]
  refine ⟨(List.range' 0 9).map
    (fun i => (text.drop (i * subStrLength text)).take (subStrLength text)),
    by simp, ?_, ?_, ?_, ?_, ?_, ?_, ?_, ?_⟩
  · intro t ht
    rw [substr_of_le _ _ _ (chunk_start_le text h t ht), List.getElem?_map,
      List.getElem?_range' _ _ ht]
    simp
  · rw [hflat, hmin]
  · rw [hflat, List.take_append_drop]
  · simp
  · intro c m
    rw [launchLoop_nine c m text h, List.map_map]
    rfl
  · intro c m suffix hs
    exact cipherStage_suffix c m text suffix hs
  · rw [Ne, List.drop_eq_nil_iff]
    omega
  · intro h100
    rw [subStrLength_eq]
    omega

/-- Witness for C1 on a text of 19 characters: nine chunks of two characters cover the
first 18 characters, and the last character is in none. -/
theorem tail_truncated_witness :
    8 * subStrLength "ABCDEFGHIJKLMNOPQRS".toList ≤ "ABCDEFGHIJKLMNOPQRS".toList.length ∧
    ∃ chunks : List Text,
      chunks.length = 9 ∧
      chunks.flatten = "ABCDEFGHIJKLMNOPQR".toList ∧
      chunks.flatten ++ "S".toList = "ABCDEFGHIJKLMNOPQRS".toList := by
  refine ⟨by decide, ?_⟩
  obtain ⟨chunks, h1, _, h3, h4, _⟩ := tail_truncated "ABCDEFGHIJKLMNOPQRS".toList (by decide)
  exact ⟨chunks, h1, h3.trans (by decide), by rw [← h4]; congr 1⟩

/-- C2 (counterexample): with the cipher that reverses its input, the first `9 * L`
characters of the assembled output differ from the cipher applied once to the first
`9 * L` characters of the input. -/
theorem chunk_order_counterexample :
    cipherStage (some (Cipher.ofFun (fun s _ => s.reverse))) .Encrypt
        "ABCDEFGHIJKLMNOPQRS".toList = .output "BADCFEHGJILKNMPORQ".toList ∧
    "BADCFEHGJILKNMPORQ".toList.take (9 * subStrLength "ABCDEFGHIJKLMNOPQRS".toList) ≠
      ("ABCDEFGHIJKLMNOPQRS".toList.take
        (9 * subStrLength "ABCDEFGHIJKLMNOPQRS".toList)).reverse := by
  decide

/-- C2 (amended): for every cipher transform that distributes over concatenation, every mode
and every input text whose nine chunks can be extracted, the assembled output is the cipher
applied once to the first `9 * L` characters of the input. -/
theorem chunk_order_distributive (f : Text → CipherMode → Text)
    (hf : ∀ a b m, f (a ++ b) m = f a m ++ f b m) (m : CipherMode) (text : Text)
    (h : 8 * subStrLength text ≤ text.length) :
    cipherStage (some (Cipher.ofFun f)) m text =
      .output (f (text.take (9 * subStrLength text)) m) := by
  rw [cipherStage_of_results (Cipher.ofFun f) m text h (fun s => f s m) (fun _ _ => rfl)]
  have hflat := flatten_chunks text (subStrLength text) 9 0
  simp only [Nat.zero_mul, List.drop_zero] at hflat
  have hmap : (List.range' 0 9).map
      (fun i => f ((text.drop (i * subStrLength text)).take (subStrLength text)) m) =
      ((List.range' 0 9).map
        (fun i => (text.drop (i * subStrLength text)).take (subStrLength text))).map
        (fun s => f s m) := by
    rw [List.map_map]
    rfl
  rw [hmap, distrib_flatten (fun s => f s m) (fun a b => hf a b m), hflat]

/-- Witness for C2 (amended): the Caesar shift by 3 on a text of 19 characters. -/
theorem chunk_order_distributive_witness :
    cipherStage (some (Cipher.ofFun (fun s m => s.map (caesarChar 3 m)))) .Encrypt
        "ABCDEFGHIJKLMNOPQRS".toList =
      .output (("ABCDEFGHIJKLMNOPQRS".toList.take
        (9 * subStrLength "ABCDEFGHIJKLMNOPQRS".toList)).map (caesarChar 3 .Encrypt)) :=
  chunk_order_distributive (fun s m => s.map (caesarChar 3 m))
    (fun a b m => List.map_append _ a b) .Encrypt "ABCDEFGHIJKLMNOPQRS".toList (by decide)

/-- C3 (failing input): on the empty text the stage ends in none of the three ways of the
claim: the `std::out_of_range` thrown by `substr(1, 1)` leaves the `try` statement and
`main` does not return. -/
theorem empty_input_escapes (c : Cipher) (m : CipherMode) (timeouts : List Nat)
    (outputFile : String) (streamGood : Bool) :
    cipherStage (some c) m [] = .uncaughtOutOfRange ∧
    ¬ ((∃ out, cipherStage (some c) m [] = .output out) ∨
        cipherStage (some c) m [] = .constructionFailure ∨
        ∃ e, cipherStage (some c) m [] = .invalidKeyFailure e) ∧
    run (some c) m timeouts outputFile streamGood [] = .terminated := by
  have h := cipherStage_nil c m
  refine ⟨h, ?_, ?_⟩
  · rw [h]; simp
  · simp [run, h]

/-- C10: for a cipher that maps a fixed function over the characters of its input and a text
whose nine chunks can be extracted, the assembled output is the cipher applied once to the
first `min(n, 9*L)` characters; when `n ≤ 9*L` it is the cipher applied to the whole text. -/
theorem per_character_transparent (c : Cipher) (g : CipherMode → Char → Char)
    (hc : ∀ s m, c.applyCipher s m = .ok (s.map (g m))) (m : CipherMode) (text : Text)
    (h : 8 * subStrLength text ≤ text.length) :
    cipherStage (some c) m text =
      .output ((text.take (min text.length (9 * subStrLength text))).map (g m)) ∧
    (text.length ≤ 9 * subStrLength text →
      cipherStage (some c) m text = .output (text.map (g m))) := by
  have hflat := flatten_chunks text (subStrLength text) 9 0
  simp only [Nat.zero_mul, List.drop_zero] at hflat
  have hout : cipherStage (some c) m text =
      .output ((text.take (9 * subStrLength text)).map (g m)) := by
    rw [cipherStage_of_results c m text h (fun s => s.map (g m)) (fun _ _ => hc _ _)]
    have hmap : (List.range' 0 9).map
        (fun i => ((text.drop (i * subStrLength text)).take (subStrLength text)).map (g m)) =
        ((List.range' 0 9).map
          (fun i => (text.drop (i * subStrLength text)).take (subStrLength text))).map
          (List.map (g m)) := by
      rw [List.map_map]
      rfl
    rw [hmap, ← List.map_flatten, hflat]
  constructor
  · by_cases hle : text.length ≤ 9 * subStrLength text
    · rw [hout, Nat.min_eq_left hle, List.take_of_length_le hle,
        List.take_of_length_le (Nat.le_refl _)]
    · rw [hout, Nat.min_eq_right (by omega)]
  · intro hle
    rw [hout, List.take_of_length_le hle]

/-- Witness for C10: the Caesar shift by 3 on a text of 32 characters, all of them covered. -/
theorem per_character_transparent_witness :
    8 * subStrLength "ABCDEFGHIJKLMNOPQRSTUVWXYZABCDEF".toList ≤
      "ABCDEFGHIJKLMNOPQRSTUVWXYZABCDEF".toList.length ∧
    cipherStage (some (caesarCipher 3)) .Encrypt "ABCDEFGHIJKLMNOPQRSTUVWXYZABCDEF".toList =
      .output ("ABCDEFGHIJKLMNOPQRSTUVWXYZABCDEF".toList.map (caesarChar 3 .Encrypt)) :=
  ⟨by decide,
    (per_character_transparent (caesarCipher 3) (caesarChar 3) (fun _ _ => rfl) .Encrypt
      "ABCDEFGHIJKLMNOPQRSTUVWXYZABCDEF".toList (by decide)).2 (by decide)⟩

/-- C4 (counterexample): no chunk raises and no `wait_for` times out, yet the run writes
nothing and returns 1, because the stream of the named output file is not good. -/
theorem all_or_nothing_counterexample :
    (∀ t, t < 9 → ∀ s,
      substr "ABCDEFGHIJKLMNOPQRSTUVWXYZABCDEF".toList
        (t * subStrLength "ABCDEFGHIJKLMNOPQRSTUVWXYZABCDEF".toList)
        (subStrLength "ABCDEFGHIJKLMNOPQRSTUVWXYZABCDEF".toList) = some s →
      ∃ r, (caesarCipher 3).applyCipher s .Encrypt = .ok r) ∧
    cipherStage (some (caesarCipher 3)) .Encrypt "ABCDEFGHIJKLMNOPQRSTUVWXYZABCDEF".toList =
      .output "DEFGHIJKLMNOPQRSTUVWXYZABCDEFGHI".toList ∧
    run (some (caesarCipher 3)) .Encrypt [] "out.txt" false
      "ABCDEFGHIJKLMNOPQRSTUVWXYZABCDEF".toList = .returned 1 [] none :=
  ⟨fun _ _ _ _ => ⟨_, rfl⟩, by decide, by decide⟩

/-- C4 (amended): when the nine chunks can be extracted, if the cipher raises `InvalidKey` on
at least one chunk the run returns 1 and writes no transformed text, whatever the other
chunks returned: no file is written and `std::cout` holds only the progress lines of the
wait loop, one per timeout.  If it raises on none, the stage yields the nine chunk results
concatenated in index order, and the run returns 0 and writes them followed by the line end,
to `std::cout` after the progress lines when no output file is named, to the file when its
stream is good; when an output file is named and its stream is not good the run returns 1
and writes no transformed text. -/
theorem all_or_nothing (c : Cipher) (m : CipherMode) (timeouts : List Nat)
    (outputFile : String) (streamGood : Bool) (text : Text)
    (h : 8 * subStrLength text ≤ text.length) :
    ((∃ t, t < 9 ∧ ∃ s e, substr text (t * subStrLength text) (subStrLength text) = some s ∧
        c.applyCipher s m = .error e) →
      (∃ e, cipherStage (some c) m text = .invalidKeyFailure e) ∧
      run (some c) m timeouts outputFile streamGood text =
        .returned 1 (waitFor ((timeouts.take 9).sum)) none) ∧
    ((∀ t, t < 9 → ∀ s, substr text (t * subStrLength text) (subStrLength text) = some s →
        ∃ r, c.applyCipher s m = .ok r) →
      ∃ results : List Text,
        results.length = 9 ∧
        (∀ t, t < 9 → ∃ s r,
          substr text (t * subStrLength text) (subStrLength text) = some s ∧
          c.applyCipher s m = .ok r ∧ results[t]? = some r) ∧
        cipherStage (some c) m text = .output results.flatten ∧
        (outputFile = "" →
          run (some c) m timeouts outputFile streamGood text =
            .returned 0 (waitFor ((timeouts.take 9).sum) ++ results.flatten ++ ['\n']) none) ∧
        (outputFile ≠ "" ∧ streamGood = true →
          run (some c) m timeouts outputFile streamGood text =
            .returned 0 (waitFor ((timeouts.take 9).sum))
              (some (outputFile, results.flatten ++ ['\n']))) ∧
        (outputFile ≠ "" ∧ streamGood = false →
          run (some c) m timeouts outputFile streamGood text =
            .returned 1 (waitFor ((timeouts.take 9).sum)) none)) := by
  have hcout := stageCout_of_le c m timeouts text h
  constructor
  · rintro ⟨t, ht, s, e, hs, he⟩
    rw [substr_of_le _ _ _ (chunk_start_le text h t ht)] at hs
    have hmem : Except.error e ∈ (List.range' 0 9).map
        (fun i => c.applyCipher
          ((text.drop (i * subStrLength text)).take (subStrLength text)) m) := by
      rw [List.mem_map]
      refine ⟨t, by simp [List.mem_range'_1]; omega, ?_⟩
      rw [Option.some.inj hs, he]
    obtain ⟨e', he'⟩ := concatLoop_error _ [] ⟨e, hmem⟩
    have hstage : cipherStage (some c) m text = .invalidKeyFailure e' := by
      rw [cipherStage_of_ok c m text _ (launchLoop_nine c m text h), he']
    refine ⟨⟨e', hstage⟩, ?_⟩
    rw [run_of_invalidKey c m timeouts outputFile streamGood text e' hstage, hcout]
  · intro hall
    obtain ⟨f, hf⟩ : ∃ f : Text → Text, ∀ i, i < 9 →
        c.applyCipher ((text.drop (i * subStrLength text)).take (subStrLength text)) m =
          .ok (f ((text.drop (i * subStrLength text)).take (subStrLength text))) := by
      refine ⟨fun s => match c.applyCipher s m with
        | .ok r => r
        | .error _ => [], fun i hi => ?_⟩
      obtain ⟨r, hr⟩ := hall i hi _ (substr_of_le _ _ _ (chunk_start_le text h i hi))
      simp only [hr]
    have hstage := cipherStage_of_results c m text h f hf
    have hrun := run_of_output c m timeouts outputFile streamGood text _ hstage
    rw [hcout] at hrun
    refine ⟨_, by simp, ?_, hstage, ?_, ?_, ?_⟩
    · intro t ht
      refine ⟨_, _, substr_of_le _ _ _ (chunk_start_le text h t ht), hf t ht, ?_⟩
      rw [List.getElem?_map, List.getElem?_range' _ _ ht]
      simp
    · intro hfile
      rw [hrun]
      simp [writeOutput, hfile]
    · rintro ⟨hfile, hgood⟩
      rw [hrun]
      simp [writeOutput, hfile, hgood]
    · rintro ⟨hfile, hbad⟩
      rw [hrun]
      simp [writeOutput, hfile, hbad]

/-- Witness for C4 (amended) on a text of 32 characters with three timeouts of `wait_for`
and no output file: a cipher that raises `InvalidKey` on the seventh chunk `YZAB` makes the
run return 1 with only the three progress lines written, and the Caesar shift by 3, which
never raises, makes it return 0 with the nine results written after them. -/
theorem all_or_nothing_witness :
    8 * subStrLength "ABCDEFGHIJKLMNOPQRSTUVWXYZABCDEF".toList ≤
      "ABCDEFGHIJKLMNOPQRSTUVWXYZABCDEF".toList.length ∧
    (caesarRejectingZ 3).applyCipher "YZAB".toList .Encrypt = .error ⟨"invalid key"⟩ ∧
    run (some (caesarRejectingZ 3)) .Encrypt [0, 2, 1] "" true
        "ABCDEFGHIJKLMNOPQRSTUVWXYZABCDEF".toList =
      .returned 1 (waitFor 3) none ∧
    ∃ results : List Text,
      results.length = 9 ∧
      cipherStage (some (caesarCipher 3)) .Encrypt "ABCDEFGHIJKLMNOPQRSTUVWXYZABCDEF".toList =
        .output results.flatten ∧
      run (some (caesarCipher 3)) .Encrypt [0, 2, 1] "" true
          "ABCDEFGHIJKLMNOPQRSTUVWXYZABCDEF".toList =
        .returned 0 (waitFor 3 ++ results.flatten ++ ['\n']) none := by
  refine ⟨by decide, rfl, ?_, ?_⟩
  · exact ((all_or_nothing (caesarRejectingZ 3) .Encrypt [0, 2, 1] "" true
      "ABCDEFGHIJKLMNOPQRSTUVWXYZABCDEF".toList (by decide)).1
      ⟨6, by decide, "YZAB".toList, ⟨"invalid key"⟩, by decide, rfl⟩).2
  · obtain ⟨results, h1, _, h3, h4, _⟩ :=
      (all_or_nothing (caesarCipher 3) .Encrypt [0, 2, 1] "" true
        "ABCDEFGHIJKLMNOPQRSTUVWXYZABCDEF".toList (by decide)).2 (fun _ _ _ _ => ⟨_, rfl⟩)
    exact ⟨results, h1, h3, h4 rfl⟩

/-- C5 (counterexample): for a text of 32 characters `L = 4` and `9 * L = 36 > 32`; the ninth
chunk is then requested at the end of the text and is empty, and the stage still outputs the
whole text transformed. -/
theorem chunk_sizing_counterexample :
    ¬ (9 * subStrLength "ABCDEFGHIJKLMNOPQRSTUVWXYZABCDEF".toList ≤
        "ABCDEFGHIJKLMNOPQRSTUVWXYZABCDEF".toList.length) ∧
    substr "ABCDEFGHIJKLMNOPQRSTUVWXYZABCDEF".toList
        (8 * subStrLength "ABCDEFGHIJKLMNOPQRSTUVWXYZABCDEF".toList)
        (subStrLength "ABCDEFGHIJKLMNOPQRSTUVWXYZABCDEF".toList) = some [] := by
  decide

/-- C5 (amended): with `L = len/10 + 1`, nine chunks of length `L` fit inside the input
exactly when `len/10 + len%10 ≥ 9`; in particular they do for every text of at least 90
characters. -/
theorem chunk_sizing (text : Text) :
    (9 * subStrLength text ≤ text.length ↔ 9 ≤ text.length / 10 + text.length % 10) ∧
    (90 ≤ text.length → 9 * subStrLength text ≤ text.length) := by
  rw [subStrLength_eq]
  constructor
  · constructor <;> intro h <;> omega
  · intro h; omega

/-- C6 (counterexample): for a text of 8 characters the launch loop takes the chunks
`A`, ..., `H` and an empty ninth chunk, not of length 1, and no character of the input is left
uncovered: with the cipher that returns its input the stage outputs the whole text. -/
theorem short_input_counterexample :
    "ABCDEFGH".toList.length < 10 ∧
    substr "ABCDEFGH".toList (8 * subStrLength "ABCDEFGH".toList)
      (subStrLength "ABCDEFGH".toList) = some [] ∧
    launchLoop (Cipher.ofFun (fun s _ => s)) .Encrypt "ABCDEFGH".toList
        (subStrLength "ABCDEFGH".toList) 9 0 [] =
      .ok [.ok ['A'], .ok ['B'], .ok ['C'], .ok ['D'], .ok ['E'], .ok ['F'], .ok ['G'],
        .ok ['H'], .ok []] ∧
    "ABCDEFGH".toList.drop (9 * subStrLength "ABCDEFGH".toList) = [] ∧
    cipherStage (some (Cipher.ofFun (fun s _ => s))) .Encrypt "ABCDEFGH".toList =
      .output "ABCDEFGH".toList :=
  ⟨by decide, by decide, rfl, by decide, by decide⟩

/-- C6 (amended): for a text shorter than 10 characters `L = 1`; when the nine chunks can be
extracted (length 8 or 9) the launch loop takes nine chunks and launches the cipher on each,
chunk `t` has length 1 for `t < len` and is empty otherwise, the chunks concatenated are the
whole text, no character is left uncovered, and with the cipher that returns its input the
stage outputs the whole text. -/
theorem short_input (text : Text) (h : text.length < 10) :
    subStrLength text = 1 ∧
    (8 ≤ text.length →
      ∃ chunks : List Text,
        chunks.length = 9 ∧
        (∀ t, t < 9 →
          substr text (t * subStrLength text) (subStrLength text) = chunks[t]?) ∧
        (∀ (c : Cipher) (m : CipherMode),
          launchLoop c m text (subStrLength text) 9 0 [] =
            .ok (chunks.map (fun s => c.applyCipher s m))) ∧
        (∀ t, t < 9 → ∀ s, chunks[t]? = some s →
          s.length = if t < text.length then 1 else 0) ∧
        chunks.flatten = text ∧
        text.drop (9 * subStrLength text) = [] ∧
        (∀ m : CipherMode,
          cipherStage (some (Cipher.ofFun (fun s _ => s))) m text = .output text)) := by
  have hL : subStrLength text = 1 := by
    rw [subStrLength_eq, Nat.div_eq_of_lt h]
  refine ⟨hL, fun h8 => ?_⟩
  have h8L : 8 * subStrLength text ≤ text.length := by rw [hL]; omega
  have hflat := flatten_chunks text (subStrLength text) 9 0
  simp only [Nat.zero_mul, List.drop_zero] at hflat
  have hall : text.take (9 * subStrLength text) = text :=
    List.take_of_length_le (by rw [hL]; omega)
  refine ⟨(List.range' 0 9).map
    (fun i => (text.drop (i * subStrLength text)).take (subStrLength text)),
    by simp, ?_, ?_, ?_, ?_, ?_, ?_⟩
  · intro t ht
    rw [substr_of_le _ _ _ (chunk_start_le text h8L t ht), List.getElem?_map,
      List.getElem?_range' _ _ ht]
    simp
  · intro c m
    rw [launchLoop_nine c m text h8L, List.map_map]
    rfl
  · intro t ht s hs
    rw [List.getElem?_map, List.getElem?_range' _ _ ht] at hs
    simp only [Option.map_some', Option.some.injEq] at hs
    rw [← hs, hL]
    simp only [List.length_take, List.length_drop]
    split <;> omega
  · rw [hflat, hall]
  · rw [List.drop_eq_nil_iff, hL]
    omega
  · intro m
    rw [cipherStage_of_results (Cipher.ofFun (fun s _ => s)) m text h8L (fun s => s)
      (fun _ _ => rfl), hflat, hall]

/-- Witness for C6 (amended): a text of 9 characters with the Caesar shift by 3. -/
theorem short_input_witness :
    "ABCDEFGHI".toList.length < 10 ∧ subStrLength "ABCDEFGHI".toList = 1 ∧
    ∃ chunks : List Text,
      chunks.length = 9 ∧
      launchLoop (caesarCipher 3) .Encrypt "ABCDEFGHI".toList
          (subStrLength "ABCDEFGHI".toList) 9 0 [] =
        .ok (chunks.map (fun s => (caesarCipher 3).applyCipher s .Encrypt)) ∧
      chunks.flatten = "ABCDEFGHI".toList ∧
      cipherStage (some (Cipher.ofFun (fun s _ => s))) .Encrypt "ABCDEFGHI".toList =
        .output "ABCDEFGHI".toList := by
  obtain ⟨hL, hrest⟩ := short_input "ABCDEFGHI".toList (by decide)
  obtain ⟨chunks, h1, _, h3, _, h5, _, h7⟩ := hrest (by decide)
  exact ⟨by decide, hL, chunks, h1, h3 _ _, h5, h7 _⟩

/-- C9: for a text of length `n` some chunk start `t * L`, `t = 0..8`, lies beyond the end of
the text (so that `substr` throws) if and only if `8 * L > n`, that is if and only if `n` is
in `0..7`, `10..15`, `20..23` or `30, 31`; for `n ≥ 32` every chunk is extracted; on the
empty text the call at `t = 0` succeeds, the call at `t = 1` throws `std::out_of_range`,
which is not an `InvalidKey`, and the stage ends with it uncaught. -/
theorem extraction_safe_iff (text : Text) :
    ((∃ t, t < 9 ∧ text.length < t * subStrLength text) ↔
      text.length < 8 * subStrLength text) ∧
    ((∃ t, t < 9 ∧ substr text (t * subStrLength text) (subStrLength text) = none) ↔
      text.length < 8 * subStrLength text) ∧
    (text.length < 8 * subStrLength text ↔
      text.length ≤ 7 ∨ (10 ≤ text.length ∧ text.length ≤ 15) ∨
        (20 ≤ text.length ∧ text.length ≤ 23) ∨ text.length = 30 ∨ text.length = 31) ∧
    (32 ≤ text.length →
      (∀ t, t < 9 → substr text (t * subStrLength text) (subStrLength text) ≠ none) ∧
      ∀ (c : Cipher) (m : CipherMode),
        ∃ futureVec, launchLoop c m text (subStrLength text) 9 0 [] = .ok futureVec) ∧
    (text.length < 8 * subStrLength text →
      ∀ (c : Cipher) (m : CipherMode), cipherStage (some c) m text = .uncaughtOutOfRange) ∧
    substr ([] : Text) (0 * subStrLength []) (subStrLength []) = some [] ∧
    substr ([] : Text) (1 * subStrLength []) (subStrLength []) = none ∧
    (∀ (c : Cipher) (m : CipherMode),
      launchLoop c m [] (subStrLength []) 9 0 [] = .error .outOfRange ∧
      (∀ e, Thrown.outOfRange ≠ Thrown.invalidKey e) ∧
      cipherStage (some c) m [] = .uncaughtOutOfRange) := by
  have hstart : (∃ t, t < 9 ∧ text.length < t * subStrLength text) ↔
      text.length < 8 * subStrLength text := by
    constructor
    · rintro ⟨t, ht, hlt⟩
      have : t * subStrLength text ≤ 8 * subStrLength text :=
        Nat.mul_le_mul_right _ (by omega)
      omega
    · intro hlt
      exact ⟨8, by omega, hlt⟩
  refine ⟨hstart, ?_, ?_, ?_, ?_, by decide, by decide, ?_⟩
  · rw [← hstart]
    simp only [substr_eq_none_iff]
  · rw [subStrLength_eq]
    constructor <;> intro h <;> omega
  · intro h32
    have h8 : 8 * subStrLength text ≤ text.length := by
      rw [subStrLength_eq]; omega
    refine ⟨fun t ht => ?_, fun c m => ⟨_, launchLoop_nine c m text h8⟩⟩
    rw [Ne, substr_eq_none_iff]
    have := chunk_start_le text h8 t ht
    omega
  · intro hlt c m
    exact cipherStage_of_lt c m text hlt
  · intro c m
    refine ⟨?_, fun e => by simp, cipherStage_nil c m⟩
    simp [launchLoop, substr, subStrLength, subStrLengthWith]

end MPAGSCipher
